import Mathlib

/-!
Verification of the preprocessing / decoding pipeline of the
machine-translation notebook (`Eng_French.ipynb`).

Text is modelled as `List Char` (the notebook works on Python `str`, which we
embed as a list of characters).  The notebook delegates tokenization to the
Keras `Tokenizer` and padding to `pad_sequences`; those library semantics are
embedded faithfully below (lower-casing, punctuation filtering, frequency
sorted vocabulary, `padding='post'` with the default `truncating='pre'`),
exactly as exercised by the notebook and visible in its recorded outputs.
-/

/-- Python `data.split(sep)` for a one-character separator: split at every
occurrence of `sep`, keeping empty segments (so the result always has
`count sep + 1` entries). -/
def splitKeep (sep : Char) : List Char → List (List Char)
  | [] => [[]]
  | c :: cs =>
    if c = sep then [] :: splitKeep sep cs
    else
      match splitKeep sep cs with
      | [] => [[c]]
      | w :: ws => (c :: w) :: ws

/-- `load_data` from the notebook: read the whole file and split it on
newline characters (`data.split('\n')`), with no filtering and no
cross-file alignment check. -/
def load_data (data : List Char) : List (List Char) :=
  splitKeep '\n' data

/-- Python `sentence.split()` on single-space separated text: the
whitespace-delimited tokens of a sentence (empty segments dropped). -/
def whitespaceTokens (cs : List Char) : List (List Char) :=
  (splitKeep ' ' cs).filter (· ≠ [])

/-- The default `filters` string of the Keras `Tokenizer`: characters erased
(replaced by the split character) before splitting. -/
def kerasFilters : List Char :=
  ("!\"#$%&()*+,-./:;<=>?@[\\]^_`" ++ "\x7b|\x7d~\t\n").toList

/-- Keras `text_to_word_sequence`: lower-case the text, replace every filter
character by the split character `' '`, split on `' '` and drop empty
segments. -/
def text_to_word_sequence (text : List Char) : List (List Char) :=
  let lowered := text.map Char.toLower
  let translated := lowered.map fun c => if c ∈ kerasFilters then ' ' else c
  (splitKeep ' ' translated).filter (· ≠ [])

/-- The corpus-wide stream of tokens, in order of appearance (the order in
which `fit_on_texts` inserts words into its ordered `word_counts` map). -/
def tokenStream (texts : List (List Char)) : List (List Char) :=
  (texts.map text_to_word_sequence).flatten

/-- Number of occurrences of a word in the training corpus
(`word_counts[w]`). -/
def wordCount (texts : List (List Char)) (w : List Char) : Nat :=
  (tokenStream texts).count w

/-- The distinct words of a list in order of first occurrence (the key order
of Python's insertion-ordered `word_counts` dictionary). -/
def firstOccList : List (List Char) → List (List Char)
  | [] => []
  | w :: ws => w :: (firstOccList ws).filter (· ≠ w)

/-- Stable insertion into a list sorted by descending key (an element is
placed before the first entry whose key is `≤` its own, so earlier elements
with an equal key stay in front). -/
def insertByDesc (key : List Char → Nat) (a : List Char) :
    List (List Char) → List (List Char)
  | [] => [a]
  | b :: bs => if key b ≤ key a then a :: b :: bs else b :: insertByDesc key a bs

/-- Stable sort by descending key, embedding Python's stable
`wcounts.sort(key=..., reverse=True)`. -/
def sortByDesc (key : List Char → Nat) : List (List Char) → List (List Char)
  | [] => []
  | a :: as => insertByDesc key a (sortByDesc key as)

/-- `sorted_voc` of `fit_on_texts`: the distinct corpus words sorted by
descending frequency, ties broken by first occurrence. -/
def sortedVoc (texts : List (List Char)) : List (List Char) :=
  sortByDesc (wordCount texts) (firstOccList (tokenStream texts))

/-- `tokenizer.word_index`: each word of `sorted_voc` paired with its rank
starting at 1 (`dict(zip(sorted_voc, range(1, ...)))`). -/
def word_index (texts : List (List Char)) : List (List Char × Nat) :=
  (sortedVoc texts).enum.map fun p => (p.2, p.1 + 1)

/-- `word_index.get(w)`: the id of a word, `none` when the word is absent. -/
def lookupId (wi : List (List Char × Nat)) (w : List Char) : Option Nat :=
  (wi.find? fun p => p.1 == w).map (·.2)

/-- Keras `texts_to_sequences`: each text becomes the ids of its words, and
words absent from `word_index` are silently dropped (no OOV token is set). -/
def texts_to_sequences (wi : List (List Char × Nat))
    (texts : List (List Char)) : List (List Nat) :=
  texts.map fun t => (text_to_word_sequence t).filterMap (lookupId wi)

/-- `tokenize` from the notebook: fit a fresh tokenizer on `x` and return
the sequences together with the fitted tokenizer (its `word_index`). -/
def tokenize (x : List (List Char)) : List (List Nat) × List (List Char × Nat) :=
  (texts_to_sequences (word_index x) x, word_index x)

/-- One row of Keras `pad_sequences(..., maxlen, padding='post')`: with the
default `truncating='pre'` an over-long row keeps its last `maxlen` elements
(`s[-maxlen:]`), and a short row is padded with `0` at the end. -/
def pad_one (maxlen : Nat) (s : List Nat) : List Nat :=
  let t := if maxlen < s.length then s.drop (s.length - maxlen) else s
  t ++ List.replicate (maxlen - t.length) 0

/-- Keras `pad_sequences(x, maxlen=length, padding='post')`. -/
def pad_sequences (x : List (List Nat)) (maxlen : Nat) : List (List Nat) :=
  x.map (pad_one maxlen)

/-- `pad_sequences_with_length` from the notebook: when no length is given it
uses the longest sequence of the batch. -/
def pad_sequences_with_length (x : List (List Nat)) (length : Option Nat) :
    List (List Nat) :=
  pad_sequences x (length.getD ((x.map List.length).foldr Nat.max 0))

/-- The vocabulary-size computation of the `preprocess` cell:
`len(tokenizer.word_index) + 1`. -/
def vocab_size (x : List (List Char)) : Nat :=
  (tokenize x).2.length + 1

/-- Helper of `np.argmax`: scanning tail `vs` from absolute position `i`,
with current best index `bi` of best value `bv`; a strictly larger value
replaces the best, so ties keep the first maximal position. -/
def argmaxFrom (i bi : Nat) (bv : ℚ) : List ℚ → Nat
  | [] => bi
  | v :: vs => if bv < v then argmaxFrom (i + 1) i v vs else argmaxFrom (i + 1) bi bv vs

/-- `np.argmax` over one row: index of the first maximal entry. -/
def argmaxIdx : List ℚ → Nat
  | [] => 0
  | v :: vs => argmaxFrom 1 0 v vs

/-- The `index_to_words` dictionary of `logits_to_text`: the inverse of
`word_index`, with id `0` mapped to the pad marker `<PAD>`. -/
def index_to_words (wi : List (List Char × Nat)) (id : Nat) : List Char :=
  if id = 0 then "<PAD>".toList
  else ((wi.find? fun p => p.2 == id).map (·.1)).getD []

/-- `logits_to_text` from the notebook: take the arg-max id at every
position, look each id up in `index_to_words`, and join the words with
single spaces. -/
def logits_to_text (logits : List (List ℚ)) (wi : List (List Char × Nat)) :
    List Char :=
  List.intercalate [' '] (logits.map fun row => index_to_words wi (argmaxIdx row))

/-- One-hot encoding of a vocabulary id over a vocabulary of size `v`,
bridging an id sequence to the per-position probability rows consumed by
`logits_to_text` (the arg-max of `oneHot v i` is `i`). -/
def oneHot (v : Nat) (id : Nat) : List ℚ :=
  (List.range v).map fun j => if j = id then 1 else 0

/-- The first corpus line of the English data, as shown in the notebook. -/
def exampleLine : List Char :=
  "new jersey is sometimes quiet during autumn , and it is snowy in april .".toList

/-! ### Lemmas about `splitKeep` -/

theorem splitKeep_ne_nil (sep : Char) (cs : List Char) : splitKeep sep cs ≠ [] := by
  cases cs with
  | nil => simp [splitKeep]
  | cons c cs =>
    simp only [splitKeep]
    split
    · simp
    · split <;> simp

theorem splitKeep_length (sep : Char) (cs : List Char) :
    (splitKeep sep cs).length = cs.count sep + 1 := by
  induction cs with
  | nil => simp [splitKeep]
  | cons c cs ih =>
    simp only [splitKeep, List.count_cons]
    by_cases hc : c = sep
    · simp [hc, ih]
    · have hne := splitKeep_ne_nil sep cs
      obtain ⟨w, ws, hw⟩ := List.exists_cons_of_ne_nil hne
      simp only [if_neg hc, hw]
      have : (c == sep) = false := by simp [hc]
      simp only [this]
      have := ih
      rw [hw] at this
      simpa using this

theorem splitKeep_of_not_mem (sep : Char) (a : List Char) (h : sep ∉ a) :
    splitKeep sep a = [a] := by
  induction a with
  | nil => simp [splitKeep]
  | cons c cs ih =>
    have hc : c ≠ sep := fun hcc => h (hcc ▸ List.mem_cons_self c cs)
    have hcs : sep ∉ cs := fun hm => h (List.mem_cons_of_mem c hm)
    simp [splitKeep, if_neg hc, ih hcs]

theorem splitKeep_append_sep (sep : Char) (a b : List Char) (h : sep ∉ a) :
    splitKeep sep (a ++ sep :: b) = a :: splitKeep sep b := by
  induction a with
  | nil => simp [splitKeep]
  | cons c cs ih =>
    have hc : c ≠ sep := fun hcc => h (hcc ▸ List.mem_cons_self c cs)
    have hcs : sep ∉ cs := fun hm => h (List.mem_cons_of_mem c hm)
    rw [List.cons_append]
    simp only [splitKeep, if_neg hc]
    rw [ih hcs]

theorem splitKeep_append_sep_last (sep : Char) (d : List Char) :
    splitKeep sep (d ++ [sep]) = splitKeep sep d ++ [[]] := by
  induction d with
  | nil => simp [splitKeep]
  | cons c cs ih =>
    by_cases hc : c = sep
    · subst hc
      rw [List.cons_append]
      simp only [splitKeep, if_pos rfl]
      rw [ih]
      simp
    · have hne := splitKeep_ne_nil sep cs
      obtain ⟨w, ws, hw⟩ := List.exists_cons_of_ne_nil hne
      rw [List.cons_append]
      simp only [splitKeep, if_neg hc]
      rw [ih, hw, List.cons_append]
      simp

theorem splitKeep_intercalate (sep : Char) (ws : List (List Char))
    (hne : ws ≠ []) (h : ∀ w ∈ ws, sep ∉ w) :
    splitKeep sep (List.intercalate [sep] ws) = ws := by
  induction ws with
  | nil => exact absurd rfl hne
  | cons w rest ih =>
    cases rest with
    | nil =>
      simp only [List.intercalate, List.intersperse_singleton, List.flatten,
        List.append_nil]
      exact splitKeep_of_not_mem sep w (h w (List.mem_cons_self w []))
    | cons w' rest' =>
      have hstep : List.intercalate [sep] (w :: w' :: rest')
          = w ++ sep :: List.intercalate [sep] (w' :: rest') := by
        simp [List.intercalate, List.intersperse_cons_cons]
      rw [hstep, splitKeep_append_sep sep w _ (h w (List.mem_cons_self w _))]
      rw [ih (by simp) (fun u hu => h u (List.mem_cons_of_mem w hu))]

/-! ### Lemmas about padding -/

theorem pad_one_length (L : Nat) (s : List Nat) : (pad_one L s).length = L := by
  simp only [pad_one]
  split <;> simp [List.length_drop, List.length_replicate] <;> omega

theorem pad_one_of_length_le (L : Nat) (s : List Nat) (h : s.length ≤ L) :
    pad_one L s = s ++ List.replicate (L - s.length) 0 := by
  simp [pad_one, Nat.not_lt.mpr h]

theorem pad_one_of_length_eq (L : Nat) (s : List Nat) (h : s.length = L) :
    pad_one L s = s := by
  rw [pad_one_of_length_le L s (le_of_eq h), h]
  simp

theorem pad_one_of_lt (L : Nat) (s : List Nat) (h : L < s.length) :
    pad_one L s = s.drop (s.length - L) := by
  have hlen : (s.drop (s.length - L)).length = L := by
    simp [List.length_drop]; omega
  simp [pad_one, if_pos h, hlen]

/-! ### Claim theorems: padding and the corpus loader -/

/-- C2, claim as stated is false: `pad_sequences` is called with
`padding='post'` but the default `truncating='pre'`, so the over-long row
`[1, 2, 3]` padded to length 2 becomes `[2, 3]` (its last two elements),
not its first two elements `[1, 2]`. -/
theorem c2_counterexample :
    pad_sequences_with_length [[1, 2, 3]] (some 2) = [[2, 3]] ∧
      pad_sequences_with_length [[1, 2, 3]] (some 2) ≠ [[1, 2]] := by
  constructor <;> decide

/-- C2 (amended): for every tokenized sequence longer than the target length
`L`, the padder's output row equals the last `L` elements of the input
(truncation drops elements from the beginning, and truncation is not an
error). -/
theorem c2_truncation_keeps_last (x : List (List Nat)) (L : Nat)
    (h : ∀ s ∈ x, L < s.length) :
    pad_sequences_with_length x (some L)
      = x.map fun s => (s.reverse.take L).reverse := by
  simp only [pad_sequences_with_length, Option.getD_some, pad_sequences]
  refine List.map_congr_left fun s hs => ?_
  rw [pad_one_of_lt L s (h s hs), List.take_reverse, List.reverse_reverse]

/-- Witness for `c2_truncation_keeps_last` at a concrete over-long row. -/
theorem c2_truncation_keeps_last_witness :
    pad_sequences_with_length [[1, 2, 3]] (some 2)
      = [[1, 2, 3]].map fun s => (s.reverse.take 2).reverse :=
  c2_truncation_keeps_last [[1, 2, 3]] 2 (by decide)

/-- C3: for every tokenized sequence shorter than the target length `L`, the
padded row is the original sequence followed by `L - len` zeros
(post-padding). -/
theorem c3_post_padding (x : List (List Nat)) (L : Nat)
    (h : ∀ s ∈ x, s.length < L) :
    pad_sequences_with_length x (some L)
      = x.map fun s => s ++ List.replicate (L - s.length) 0 := by
  simp only [pad_sequences_with_length, Option.getD_some, pad_sequences]
  exact List.map_congr_left fun s hs =>
    pad_one_of_length_le L s (le_of_lt (h s hs))

/-- Witness for `c3_post_padding` at a concrete short row. -/
theorem c3_post_padding_witness :
    pad_sequences_with_length [[5, 7]] (some 4)
      = [[5, 7]].map fun s => s ++ List.replicate (4 - s.length) 0 :=
  c3_post_padding [[5, 7]] 4 (by decide)

/-- C8: padding to a fixed target length `L` is idempotent, because every
padded row already has length exactly `L` and a row of length `L` is
returned unchanged. -/
theorem c8_pad_idempotent (x : List (List Nat)) (L : Nat) :
    pad_sequences_with_length (pad_sequences_with_length x (some L)) (some L)
      = pad_sequences_with_length x (some L) := by
  simp only [pad_sequences_with_length, Option.getD_some, pad_sequences,
    List.map_map]
  refine List.map_congr_left fun s _ => ?_
  exact pad_one_of_length_eq L (pad_one L s) (pad_one_length L s)

/-- C7, claim as stated is false: `load_data` reads a single file and splits
it on newlines; there is no cross-file line-count check and no "misaligned
corpus" error.  On the contents `"a\nb"` and `"c"` it returns two sequences
of different lengths. -/
theorem c7_counterexample :
    load_data ['a', '\n', 'b'] = [['a'], ['b']] ∧
      load_data ['c'] = [['c']] ∧
      (load_data ['a', '\n', 'b']).length ≠ (load_data ['c']).length := by
  refine ⟨by decide, by decide, by decide⟩

/-- C7 (amended): the corpus loader performs no alignment check: each file is
split on newlines independently, and two files whose newline counts differ
yield two ordinary sequences of different lengths instead of an error. -/
theorem c7_no_alignment_check (a b : List Char)
    (h : a.count '\n' ≠ b.count '\n') :
    (load_data a).length ≠ (load_data b).length := by
  simp only [load_data, splitKeep_length]
  omega

/-- Witness for `c7_no_alignment_check` on concrete misaligned contents. -/
theorem c7_no_alignment_check_witness :
    (load_data ['a', '\n', 'b']).length ≠ (load_data ['c']).length :=
  c7_no_alignment_check ['a', '\n', 'b'] ['c'] (by decide)

/-- C10: the loader splits the raw contents on newlines with no filtering:
a run of text without a newline becomes the next sentence as-is (so empty
lines are kept as empty sentences), contents ending in a newline produce the
empty string as last element, and the number of sentences is always the
newline count plus one. -/
theorem c10_loader_splits_without_filtering :
    (∀ a b : List Char, '\n' ∉ a →
        load_data (a ++ '\n' :: b) = a :: load_data b) ∧
      (∀ d : List Char, (load_data (d ++ ['\n'])).getLast? = some []) ∧
      (∀ d : List Char, (load_data d).length = d.count '\n' + 1) := by
  refine ⟨fun a b ha => splitKeep_append_sep '\n' a b ha, fun d => ?_,
    fun d => splitKeep_length '\n' d⟩
  rw [load_data, splitKeep_append_sep_last '\n' d, List.getLast?_concat]

/-- Witness for `c10_loader_splits_without_filtering`: a file whose contents
hold an empty line and end in a newline. -/
theorem c10_loader_splits_without_filtering_witness :
    load_data (['a'] ++ '\n' :: ['\n']) = ['a'] :: load_data ['\n'] :=
  c10_loader_splits_without_filtering.1 ['a'] ['\n'] (by decide)

/-! ### Lemmas about the frequency sort -/

theorem insertByDesc_perm (key : List Char → Nat) (a : List Char)
    (l : List (List Char)) : (insertByDesc key a l).Perm (a :: l) := by
  induction l with
  | nil => simp [insertByDesc]
  | cons b bs ih =>
    simp only [insertByDesc]
    split
    · exact List.Perm.refl _
    · exact (ih.cons b).trans (List.Perm.swap a b bs)

theorem sortByDesc_perm (key : List Char → Nat) (l : List (List Char)) :
    (sortByDesc key l).Perm l := by
  induction l with
  | nil => simp [sortByDesc]
  | cons a as ih =>
    exact (insertByDesc_perm key a (sortByDesc key as)).trans (ih.cons a)

theorem insertByDesc_sorted (key : List Char → Nat) (a : List Char)
    (l : List (List Char))
    (h : l.Pairwise fun u v => key v ≤ key u) :
    (insertByDesc key a l).Pairwise fun u v => key v ≤ key u := by
  induction l with
  | nil => simp [insertByDesc]
  | cons b bs ih =>
    rcases List.pairwise_cons.mp h with ⟨hb, hbs⟩
    simp only [insertByDesc]
    split
    · rename_i hba
      refine List.pairwise_cons.mpr ⟨?_, h⟩
      intro v hv
      rcases List.mem_cons.mp hv with rfl | hv'
      · exact hba
      · exact le_trans (hb v hv') hba
    · rename_i hba
      refine List.pairwise_cons.mpr ⟨?_, ih hbs⟩
      intro v hv
      have hv' := (insertByDesc_perm key a bs).mem_iff.mp hv
      rcases List.mem_cons.mp hv' with rfl | hv''
      · exact le_of_lt (Nat.lt_of_not_le hba)
      · exact hb v hv''

theorem sortByDesc_sorted (key : List Char → Nat) (l : List (List Char)) :
    (sortByDesc key l).Pairwise fun u v => key v ≤ key u := by
  induction l with
  | nil => simp [sortByDesc]
  | cons a as ih => exact insertByDesc_sorted key a _ ih

theorem insertByDesc_filter_self (key : List Char → Nat) (a : List Char)
    (l : List (List Char)) :
    (insertByDesc key a l).filter (fun b => key b == key a)
      = a :: l.filter (fun b => key b == key a) := by
  induction l with
  | nil => simp [insertByDesc]
  | cons b bs ih =>
    simp only [insertByDesc]
    split
    · simp
    · rename_i hba
      have hbne : (key b == key a) = false := by
        simp only [beq_eq_false_iff_ne, ne_eq]
        intro hEq
        exact hba (le_of_eq hEq)
      simp [List.filter_cons, hbne, ih]

theorem insertByDesc_filter_ne (key : List Char → Nat) (a : List Char)
    (l : List (List Char)) (k : Nat) (hk : key a ≠ k) :
    (insertByDesc key a l).filter (fun b => key b == k)
      = l.filter (fun b => key b == k) := by
  induction l with
  | nil => simp [insertByDesc, hk]
  | cons b bs ih =>
    simp only [insertByDesc]
    split
    · simp only [List.filter_cons]
      have : (key a == k) = false := by simpa using hk
      simp [this]
    · simp only [List.filter_cons, ih]

theorem sortByDesc_filter (key : List Char → Nat) (l : List (List Char))
    (k : Nat) :
    (sortByDesc key l).filter (fun b => key b == k)
      = l.filter (fun b => key b == k) := by
  induction l with
  | nil => simp [sortByDesc]
  | cons a as ih =>
    simp only [sortByDesc]
    by_cases ha : key a = k
    · subst ha
      rw [insertByDesc_filter_self, ih]
      have : (key a == key a) = true := by simp
      simp [List.filter_cons, this]
    · rw [insertByDesc_filter_ne key a _ k ha, ih]
      have : (key a == k) = false := by simpa using ha
      simp [List.filter_cons, this]

/-! ### Lemmas about `firstOccList`, `sortedVoc` and `word_index` -/

theorem firstOccList_mem (l : List (List Char)) (w : List Char) :
    w ∈ firstOccList l ↔ w ∈ l := by
  induction l with
  | nil => simp [firstOccList]
  | cons v vs ih =>
    simp only [firstOccList, List.mem_cons]
    constructor
    · rintro (rfl | hw)
      · exact Or.inl rfl
      · exact Or.inr (ih.mp (List.mem_of_mem_filter hw))
    · rintro (rfl | hw)
      · exact Or.inl rfl
      · by_cases hv : w = v
        · exact Or.inl hv
        · refine Or.inr (List.mem_filter.mpr ⟨ih.mpr hw, ?_⟩)
          simpa using hv

theorem firstOccList_nodup (l : List (List Char)) : (firstOccList l).Nodup := by
  induction l with
  | nil => simp [firstOccList]
  | cons v vs ih =>
    simp only [firstOccList]
    refine List.nodup_cons.mpr ⟨?_, List.Nodup.filter _ ih⟩
    intro hv
    have := (List.mem_filter.mp hv).2
    simp at this

theorem sortedVoc_perm (x : List (List Char)) :
    (sortedVoc x).Perm (firstOccList (tokenStream x)) :=
  sortByDesc_perm _ _

theorem sortedVoc_nodup (x : List (List Char)) : (sortedVoc x).Nodup :=
  (sortedVoc_perm x).nodup_iff.mpr (firstOccList_nodup _)

theorem sortedVoc_mem (x : List (List Char)) (w : List Char) :
    w ∈ sortedVoc x ↔ w ∈ tokenStream x :=
  Iff.trans (sortedVoc_perm x).mem_iff (firstOccList_mem _ w)

theorem word_index_keys (x : List (List Char)) :
    (word_index x).map (·.1) = sortedVoc x := by
  simp only [word_index, List.map_map]
  exact List.enum_map_snd (sortedVoc x)

theorem word_index_ids (x : List (List Char)) :
    (word_index x).map (·.2)
      = (List.range (sortedVoc x).length).map (· + 1) := by
  simp only [word_index, List.map_map]
  have h := congrArg (List.map (· + 1)) (List.enum_map_fst (sortedVoc x))
  rw [List.map_map] at h
  exact h

theorem word_index_length (x : List (List Char)) :
    (word_index x).length = (sortedVoc x).length := by
  simp [word_index]

theorem word_index_id_bounds (x : List (List Char)) (p : List Char × Nat)
    (hp : p ∈ word_index x) : 1 ≤ p.2 ∧ p.2 ≤ (word_index x).length := by
  have hmem : p.2 ∈ (word_index x).map (·.2) := List.mem_map_of_mem _ hp
  rw [word_index_ids] at hmem
  rcases List.mem_map.mp hmem with ⟨j, hj, hj2⟩
  have hjlt : j < (sortedVoc x).length := List.mem_range.mp hj
  rw [word_index_length]
  omega

theorem word_index_keys_nodup (x : List (List Char)) :
    ((word_index x).map (·.1)).Nodup := by
  rw [word_index_keys]; exact sortedVoc_nodup x

theorem word_index_ids_nodup (x : List (List Char)) :
    ((word_index x).map (·.2)).Nodup := by
  rw [word_index_ids]
  exact (List.nodup_range _).map (fun a b => by omega)

/-! ### Claim theorems: vocabulary invariants and determinism -/

/-- C4: in every fitted vocabulary, distinct tokens get distinct ids
(and each token appears once), id 0 is never assigned to a token, and the
computed `vocab_size` (`len(word_index) + 1`) is the number of distinct
corpus tokens plus one. -/
theorem c4_vocabulary_invariants (x : List (List Char)) :
    ((word_index x).map (·.1)).Nodup ∧
      ((word_index x).map (·.2)).Nodup ∧
      (∀ p ∈ word_index x, p.2 ≠ 0) ∧
      vocab_size x = (tokenStream x).dedup.length + 1 := by
  refine ⟨word_index_keys_nodup x, word_index_ids_nodup x, ?_, ?_⟩
  · intro p hp
    have := (word_index_id_bounds x p hp).1
    omega
  · have hperm : (firstOccList (tokenStream x)).Perm (tokenStream x).dedup := by
      rw [List.perm_ext_iff_of_nodup (firstOccList_nodup _) (List.nodup_dedup _)]
      intro w
      rw [firstOccList_mem, List.mem_dedup]
    have hlen : (sortedVoc x).length = (tokenStream x).dedup.length :=
      ((sortedVoc_perm x).trans hperm).length_eq
    simp only [vocab_size, tokenize, word_index_length, hlen]

/-- C9: the tokenizer's id assignment is the deterministic rule the claim
names: the fitted vocabulary lists tokens in descending corpus frequency
(`Pairwise`), and among tokens of any equal frequency `k` it preserves the
first-occurrence order of the corpus (the stable-sort filter identity).
In this functional embedding the build depends on nothing but the input
list, so two runs on the same list agree by construction. -/
theorem c9_deterministic_frequency_order (x : List (List Char)) :
    ((sortedVoc x).Pairwise fun u v => wordCount x v ≤ wordCount x u) ∧
      ∀ k : Nat,
        (sortedVoc x).filter (fun w => wordCount x w == k)
          = (firstOccList (tokenStream x)).filter
              (fun w => wordCount x w == k) := by
  exact ⟨sortByDesc_sorted _ _, fun k => sortByDesc_filter _ _ k⟩


/-! ### Lemmas about vocabulary lookup -/

theorem length_filterMap_of_isSome {α β : Type} (f : α → Option β)
    (l : List α) (h : ∀ a ∈ l, (f a).isSome) :
    (l.filterMap f).length = l.length := by
  induction l with
  | nil => simp
  | cons a as ih =>
    have ha := h a (List.mem_cons_self a as)
    obtain ⟨b, hb⟩ := Option.isSome_iff_exists.mp ha
    rw [List.filterMap_cons_some hb]
    simp only [List.length_cons]
    rw [ih fun u hu => h u (List.mem_cons_of_mem a hu)]

theorem lookupId_isSome (wi : List (List Char × Nat)) (w : List Char)
    (h : w ∈ wi.map (·.1)) : (lookupId wi w).isSome := by
  rcases List.mem_map.mp h with ⟨p, hp, hp1⟩
  have hfind : (wi.find? fun q => q.1 == w).isSome :=
    List.find?_isSome.mpr ⟨p, hp, by simpa only [beq_iff_eq] using hp1⟩
  simpa [lookupId] using hfind

theorem mem_tokenStream_of_mem (x : List (List Char)) (t w : List Char)
    (ht : t ∈ x) (hw : w ∈ text_to_word_sequence t) : w ∈ tokenStream x := by
  simp only [tokenStream, List.mem_flatten]
  exact ⟨text_to_word_sequence t, List.mem_map_of_mem _ ht, hw⟩

theorem lookupId_isSome_of_mem_stream (x : List (List Char)) (w : List Char)
    (h : w ∈ tokenStream x) : (lookupId (word_index x) w).isSome := by
  apply lookupId_isSome
  rw [word_index_keys, sortedVoc_mem]
  exact h

/-! ### Claim theorem: tokenized sequence lengths -/

/-- C1, claim as stated is false: the Keras tokenizer erases punctuation
characters (its default `filters` holds `,` and `.`) before splitting, so
the corpus line does NOT get one id per whitespace-delimited token.  The
line has 15 whitespace-delimited tokens (not the claimed 16), and its
tokenized sequence has only 13 ids. -/
theorem c1_counterexample :
    (whitespaceTokens exampleLine).length = 15 ∧
      ((tokenize [exampleLine]).1.headD []).length = 13 ∧
      ((tokenize [exampleLine]).1.headD []).length
        ≠ (whitespaceTokens exampleLine).length ∧
      (whitespaceTokens exampleLine).length ≠ 16 := by
  refine ⟨by decide, by decide, by decide, by decide⟩

/-- C1 (amended): the tokenizer produces one id per token that survives the
punctuation filter (`text_to_word_sequence`); punctuation-only tokens such
as `,` and `.` are erased.  The example corpus line tokenizes to 13 ids
(its 15 whitespace tokens minus the two punctuation tokens), and after
padding that sequence to max_length = 21 the final 8 entries equal 0. -/
theorem c1_one_id_per_filtered_token :
    (∀ x : List (List Char),
        ((tokenize x).1).map List.length
          = x.map fun s => (text_to_word_sequence s).length) ∧
      ((tokenize [exampleLine]).1.headD []).length = 13 ∧
      (pad_sequences_with_length (tokenize [exampleLine]).1 (some 21)).headD []
        = ((tokenize [exampleLine]).1.headD []) ++ List.replicate 8 0 := by
  refine ⟨fun x => ?_, by decide, by decide⟩
  simp only [tokenize, texts_to_sequences, List.map_map]
  refine List.map_congr_left fun t ht => ?_
  exact length_filterMap_of_isSome _ _ fun w hw =>
    lookupId_isSome_of_mem_stream x w (mem_tokenStream_of_mem x t w ht hw)

/-! ### Lemmas about `argmaxIdx` on one-hot rows -/

theorem argmaxFrom_replicate_zero (m : Nat) : ∀ (i bi : Nat) (bv : ℚ),
    0 ≤ bv → argmaxFrom i bi bv (List.replicate m 0) = bi := by
  induction m with
  | zero => intro i bi bv _; simp [argmaxFrom]
  | succ m ih =>
    intro i bi bv h
    rw [List.replicate_succ]
    simp only [argmaxFrom]
    rw [if_neg (by exact not_lt.mpr h)]
    exact ih (i + 1) bi bv h

theorem argmaxFrom_zeros_then_one (k : Nat) (m : Nat) : ∀ (i bi : Nat),
    argmaxFrom i bi 0 (List.replicate m 0 ++ 1 :: List.replicate k 0)
      = i + m := by
  induction m with
  | zero =>
    intro i bi
    simp only [List.replicate_zero, List.nil_append]
    simp only [argmaxFrom]
    rw [if_pos (by norm_num)]
    rw [argmaxFrom_replicate_zero k (i + 1) i 1 (by norm_num)]
    omega
  | succ m ih =>
    intro i bi
    rw [List.replicate_succ, List.cons_append]
    simp only [argmaxFrom]
    rw [if_neg (by norm_num)]
    rw [ih (i + 1) bi]
    omega

theorem oneHot_eq_replicate (v i : Nat) (h : i < v) :
    oneHot v i
      = List.replicate i 0 ++ 1 :: List.replicate (v - i - 1) 0 := by
  have hv : v = i + 1 + (v - i - 1) := by omega
  rw [oneHot, hv, List.range_add, List.map_append, List.range_succ,
    List.map_append]
  have h1 : (List.range i).map (fun j => if j = i then (1 : ℚ) else 0)
      = List.replicate i 0 := by
    refine List.eq_replicate_iff.mpr ⟨by simp, ?_⟩
    intro b hb
    rcases List.mem_map.mp hb with ⟨j, hj, rfl⟩
    have hji : j < i := List.mem_range.mp hj
    simp [Nat.ne_of_lt hji]
  have h2 : ([i].map fun j => if j = i then (1 : ℚ) else 0) = [1] := by simp
  have h3 : (((List.range (v - i - 1)).map fun u => i + 1 + u).map
        fun j => if j = i then (1 : ℚ) else 0)
      = List.replicate (v - i - 1) 0 := by
    refine List.eq_replicate_iff.mpr ⟨by simp, ?_⟩
    intro b hb
    rcases List.mem_map.mp hb with ⟨j, hj, rfl⟩
    rcases List.mem_map.mp hj with ⟨u, _, rfl⟩
    have : ¬(i + 1 + u = i) := by omega
    simp [this]
  rw [h1, h2, h3]
  have hc : i + 1 + (v - i - 1) - i - 1 = v - i - 1 := by omega
  rw [hc]
  simp

theorem argmaxIdx_oneHot (v i : Nat) (h : i < v) :
    argmaxIdx (oneHot v i) = i := by
  rw [oneHot_eq_replicate v i h]
  cases i with
  | zero =>
    simp only [List.replicate_zero, List.nil_append]
    simp only [argmaxIdx]
    exact argmaxFrom_replicate_zero (v - 0 - 1) 1 0 1 (by norm_num)
  | succ j =>
    rw [List.replicate_succ, List.cons_append]
    simp only [argmaxIdx]
    rw [argmaxFrom_zeros_then_one (v - (j + 1) - 1) j 1 0]
    omega

/-! ### Lemmas about the inverse vocabulary lookup -/

theorem lookupId_mem (wi : List (List Char × Nat)) (w : List Char) (i : Nat)
    (h : lookupId wi w = some i) : (w, i) ∈ wi := by
  simp only [lookupId] at h
  rcases Option.map_eq_some'.mp h with ⟨p, hfind, hp2⟩
  have hmem := List.mem_of_find?_eq_some hfind
  have hp1 : p.1 = w := by
    have := List.find?_some hfind
    simpa only [beq_iff_eq] using this
  have hp : p = (w, i) := by
    cases p
    simp only [Prod.mk.injEq]
    exact ⟨hp1, hp2⟩
  rw [hp] at hmem
  exact hmem

theorem index_to_words_of_mem (wi : List (List Char × Nat)) (w : List Char)
    (i : Nat) (hids : (wi.map (·.2)).Nodup) (hmem : (w, i) ∈ wi)
    (hi : i ≠ 0) : index_to_words wi i = w := by
  induction wi with
  | nil => simp at hmem
  | cons q rest ih =>
    rw [List.map_cons] at hids
    rcases List.nodup_cons.mp hids with ⟨hq, hrest⟩
    by_cases hqi : q.2 = i
    · have hpos : (q.2 == i) = true := by simpa using hqi
      rw [index_to_words, if_neg hi, List.find?_cons_of_pos rest hpos]
      rcases List.mem_cons.mp hmem with heq | htail
      · rw [← heq]
        rfl
      · exfalso
        have hin : i ∈ rest.map (·.2) := by
          have hin' : ((w, i) : List Char × Nat).2 ∈ rest.map (·.2) :=
            List.mem_map_of_mem _ htail
          exact hin'
        exact hq (hqi ▸ hin)
    · have hneg : ¬((q.2 == i) = true) := by simpa using hqi
      rw [index_to_words, if_neg hi, List.find?_cons_of_neg rest hneg]
      have htail : (w, i) ∈ rest := by
        rcases List.mem_cons.mp hmem with heq | htail
        · exfalso; exact hqi (by rw [← heq])
        · exact htail
      have hrec := ih hrest htail
      rw [index_to_words, if_neg hi] at hrec
      exact hrec

theorem vocab_size_eq (x : List (List Char)) :
    vocab_size x = (word_index x).length + 1 := rfl

theorem decode_step_token (x : List (List Char)) (w : List Char) (i : Nat)
    (h : lookupId (word_index x) w = some i) :
    index_to_words (word_index x) (argmaxIdx (oneHot (vocab_size x) i)) = w := by
  have hmem := lookupId_mem (word_index x) w i h
  have hbounds := word_index_id_bounds x (w, i) hmem
  have hiv : i < vocab_size x := by
    rw [vocab_size_eq]
    omega
  rw [argmaxIdx_oneHot _ _ hiv]
  exact index_to_words_of_mem (word_index x) w i (word_index_ids_nodup x) hmem
    (by omega)

theorem decode_step_pad (x : List (List Char)) :
    index_to_words (word_index x) (argmaxIdx (oneHot (vocab_size x) 0))
      = "<PAD>".toList := by
  have h0 : 0 < vocab_size x := by rw [vocab_size_eq]; omega
  rw [argmaxIdx_oneHot _ _ h0, index_to_words, if_pos rfl]

theorem decode_tokens (x : List (List Char)) (ws : List (List Char))
    (hws : ∀ w ∈ ws, w ∈ tokenStream x) :
    ((ws.filterMap (lookupId (word_index x))).map fun i =>
        index_to_words (word_index x) (argmaxIdx (oneHot (vocab_size x) i)))
      = ws := by
  induction ws with
  | nil => simp
  | cons w rest ih =>
    have hsome := lookupId_isSome_of_mem_stream x w
      (hws w (List.mem_cons_self w rest))
    obtain ⟨i, hi⟩ := Option.isSome_iff_exists.mp hsome
    rw [List.filterMap_cons_some hi, List.map_cons, decode_step_token x w i hi,
      ih fun u hu => hws u (List.mem_cons_of_mem w hu)]

/-! ### Claim theorems: decoding -/

/-- C6: for every per-position probability matrix and id-to-token mapping
(with at least one position and space-free tokens, which every vocabulary
built by splitting on spaces satisfies), the decoder's output splits back
into exactly one token per position, each obtained by looking up the
arg-max id of that position in the inverse vocabulary, and id 0 is mapped
to the pad marker. -/
theorem c6_decoder_one_token_per_position (logits : List (List ℚ))
    (wi : List (List Char × Nat)) (hne : logits ≠ [])
    (hsp : ∀ row ∈ logits, ' ' ∉ index_to_words wi (argmaxIdx row)) :
    splitKeep ' ' (logits_to_text logits wi)
        = (logits.map fun row => index_to_words wi (argmaxIdx row)) ∧
      index_to_words wi 0 = "<PAD>".toList := by
  constructor
  · rw [logits_to_text]
    apply splitKeep_intercalate
    · simpa using hne
    · intro w hw
      rcases List.mem_map.mp hw with ⟨row, hrow, rfl⟩
      exact hsp row hrow
  · rw [index_to_words, if_pos rfl]

/-- Witness for `c6_decoder_one_token_per_position`: a two-position
probability matrix over a one-word vocabulary, decoding to the word and the
pad marker. -/
theorem c6_decoder_one_token_per_position_witness :
    splitKeep ' ' (logits_to_text [[0, 1], [1, 0]] [("a".toList, 1)])
        = ([[0, 1], [1, 0]].map fun row =>
            index_to_words [("a".toList, 1)] (argmaxIdx row)) ∧
      index_to_words [("a".toList, 1)] 0 = "<PAD>".toList :=
  c6_decoder_one_token_per_position [[0, 1], [1, 0]] [("a".toList, 1)]
    (by decide) (by decide)

/-- C5, claim as stated is false: decoding the padded tokenization does NOT
reproduce the original token sequence whenever the sentence is shorter than
max_length, because the padding positions decode to explicit `<PAD>`
markers.  With corpus `["a b c", "a b"]` (max length 3) the sentence
`"a b"` decodes to `"a b <PAD>"`, not `"a b"`. -/
theorem c5_counterexample :
    logits_to_text
        (((pad_sequences_with_length
              (texts_to_sequences (word_index ["a b c".toList, "a b".toList])
                ["a b".toList]) (some 3)).headD []).map
          (oneHot (vocab_size ["a b c".toList, "a b".toList])))
        (word_index ["a b c".toList, "a b".toList])
      = "a b <PAD>".toList ∧
      "a b <PAD>".toList
        ≠ List.intercalate [' '] (text_to_word_sequence "a b".toList) := by
  constructor <;> decide

/-- C5 (amended): for every sentence whose (filter-surviving) tokens are all
in-vocabulary and number at most `L`, decoding the padded tokenization
reproduces the original token sequence (up to the upstream case/punctuation
normalization, i.e. `text_to_word_sequence`) followed by `L - len` pad
markers for the padding positions. -/
theorem c5_roundtrip_up_to_padding (x : List (List Char)) (s : List Char)
    (L : Nat) (hv : ∀ w ∈ text_to_word_sequence s, w ∈ tokenStream x)
    (hL : (text_to_word_sequence s).length ≤ L) :
    logits_to_text
        (((pad_sequences_with_length (texts_to_sequences (word_index x) [s])
              (some L)).headD []).map (oneHot (vocab_size x)))
        (word_index x)
      = List.intercalate [' ']
          (text_to_word_sequence s
            ++ List.replicate (L - (text_to_word_sequence s).length)
                ("<PAD>".toList)) := by
  have hsome : ∀ w ∈ text_to_word_sequence s,
      (lookupId (word_index x) w).isSome := fun w hw =>
    lookupId_isSome_of_mem_stream x w (hv w hw)
  have hlen : ((text_to_word_sequence s).filterMap
      (lookupId (word_index x))).length = (text_to_word_sequence s).length :=
    length_filterMap_of_isSome _ _ hsome
  have hbatch : pad_sequences_with_length
        (texts_to_sequences (word_index x) [s]) (some L)
      = [pad_one L
          ((text_to_word_sequence s).filterMap (lookupId (word_index x)))] := by
    simp [pad_sequences_with_length, pad_sequences, texts_to_sequences]
  rw [hbatch]
  simp only [List.headD_cons]
  rw [pad_one_of_length_le L _ (le_trans (le_of_eq hlen) hL)]
  simp only [logits_to_text, List.map_map, Function.comp_def]
  rw [List.map_append, List.map_replicate]
  rw [decode_tokens x _ hv, decode_step_pad x, hlen]

/-- Witness for `c5_roundtrip_up_to_padding`: the in-vocabulary sentence
`"a b"` with `L = 3` decodes back to its tokens plus one pad marker. -/
theorem c5_roundtrip_up_to_padding_witness :
    logits_to_text
        (((pad_sequences_with_length
              (texts_to_sequences (word_index ["a b".toList]) ["a b".toList])
              (some 3)).headD []).map (oneHot (vocab_size ["a b".toList])))
        (word_index ["a b".toList])
      = List.intercalate [' ']
          (text_to_word_sequence "a b".toList
            ++ List.replicate (3 - (text_to_word_sequence "a b".toList).length)
                ("<PAD>".toList)) :=
  c5_roundtrip_up_to_padding ["a b".toList] "a b".toList 3 (by decide)
    (by decide)
